import Mathlib

/-!
Verification of roeldev/go-env: pair parsing, slice and stream ingest, flag extraction, merge

A shallow embedding of `env.go`.  Go strings are byte sequences, so a string is a list of
bytes; `len`, indexing and slicing are byte-wise, as in Go.  A run-time panic (index or slice
bounds out of range) is the result `none`.  A Go map is its lookup function.
-/

namespace GoEnv

/-- A byte, the element type of a Go string. -/
abbrev Byte := Fin 256

/-- A Go string: an immutable sequence of bytes. -/
abbrev GoString := List Byte

/-- The constant `runeQuot = 39`, the single quote. -/
def runeQuot : Byte := 39

/-- The constant `runeDblQuot = 34`, the double quote. -/
def runeDblQuot : Byte := 34

/-- The constant `runeHash = 35`. -/
def runeHash : Byte := 35

/-- The byte of `'='`. -/
def byteEq : Byte := 61

/-- The byte of `'-'`. -/
def byteDash : Byte := 45

/-- UTF-8 encoding of a code point, as Go does when it converts a rune to a string
(surrogates and values above U+10FFFF become U+FFFD). -/
def encodeRune (r : Nat) : GoString :=
  if r < 0x80 then [Fin.ofNat r]
  else if r < 0x800 then [Fin.ofNat (0xC0 + r / 64), Fin.ofNat (0x80 + r % 64)]
  else if 0xD800 ≤ r ∧ r < 0xE000 then [0xEF, 0xBF, 0xBD]
  else if r < 0x10000 then
    [Fin.ofNat (0xE0 + r / 4096), Fin.ofNat (0x80 + r / 64 % 64), Fin.ofNat (0x80 + r % 64)]
  else if r < 0x110000 then
    [Fin.ofNat (0xF0 + r / 262144), Fin.ofNat (0x80 + r / 4096 % 64),
      Fin.ofNat (0x80 + r / 64 % 64), Fin.ofNat (0x80 + r % 64)]
  else [0xEF, 0xBF, 0xBD]

/-- The Go string denoted by a string literal: the UTF-8 bytes of its characters. -/
def str (s : String) : GoString :=
  s.toList.flatMap (fun c => encodeRune c.toNat)

/-- The conversion `string(b)` of a byte `b`: the UTF-8 encoding of the code point `b`
(one byte below 0x80, two bytes from 0x80 to 0xFF). -/
def stringOfByte (b : Byte) : GoString :=
  encodeRune b.val

/-- The index expression `s[i]`; `none` is the panic for an index out of range. -/
def index (s : GoString) (i : Int) : Option Byte :=
  if 0 ≤ i then s.get? i.toNat else none

/-- The slice expression `s[lo:hi]`; `none` is the panic for bounds out of range. -/
def slice (s : GoString) (lo hi : Int) : Option GoString :=
  if 0 ≤ lo ∧ lo ≤ hi ∧ hi ≤ s.length then some ((s.take hi.toNat).drop lo.toNat) else none

/-- The slice expression `s[lo:]`. -/
def sliceFrom (s : GoString) (lo : Int) : Option GoString :=
  slice s lo s.length

/-- The search loop of `strings.Index`: the position of the first occurrence of `sep` in `s`,
counted from `k`, or `-1`. -/
def indexFrom (sep : GoString) : GoString → Nat → Int
  | [], k => if sep = [] then (k : Int) else -1
  | c :: cs, k => if sep.isPrefixOf (c :: cs) then (k : Int) else indexFrom sep cs (k + 1)

/-- The library function `strings.Index(s, sep)`. -/
def Index (s sep : GoString) : Int :=
  indexFrom sep s 0

/-- The loop of `genSplit` for a non-empty separator: at most `n` cuts, each piece keeping
`sepSave` bytes of the separator, and the rest of the string as the last piece. -/
def genSplitLoop (sep : GoString) (sepSave : Nat) : Nat → GoString → List GoString
  | 0, s => [s]
  | n + 1, s =>
    let m := Index s sep
    if m < 0 then [s]
    else s.take (m.toNat + sepSave) :: genSplitLoop sep sepSave n (s.drop (m.toNat + sep.length))

/-- The library function `strings.SplitAfterN(s, sep, n)` for a non-empty `sep` and `n ≥ 0`,
the only way `ParsePair` calls it (`sep = "="`, `n = 2`). -/
def SplitAfterN (s sep : GoString) (n : Nat) : List GoString :=
  if n = 0 then [] else genSplitLoop sep sep.length (n - 1) s

/-- The function `ParsePair`.  The result `none` is a run-time panic. -/
def ParsePair (pair : GoString) : Option (GoString × GoString) := do
  let rest ← sliceFrom pair 1
  match SplitAfterN rest [byteEq] 2 with
  | [s0, s1] =>
    let p0 ← index pair 0
    let key := stringOfByte p0 ++ s0
    let key ← slice key 0 ((key.length : Int) - 1)
    let val := s1
    if val = [] then
      pure (key, val)
    else
      let last : Int := (val.length : Int) - 1
      let v0 ← index val 0
      let vl ← index val last
      if (v0 = runeDblQuot ∨ v0 = runeQuot) ∧ v0 = vl then
        let val ← slice val 1 last
        pure (key, val)
      else
        pure (key, val)
  | _ => pure ([], [])

/-- The type `Map`, a Go `map[string]string`, as its lookup function. -/
abbrev Map := GoString → Option GoString

/-- The empty map. -/
def Map.empty : Map := fun _ => none

/-- The assignment `m[key] = val`. -/
def Map.set (m : Map) (key val : GoString) : Map :=
  fun k => if k = key then some val else m k

/-- The map holding the listed entries, later entries overwriting earlier ones. -/
def Map.ofList (kvs : List (GoString × GoString)) : Map :=
  kvs.foldl (fun m kv => m.set kv.1 kv.2) Map.empty

/-- The method `Map.parse`: the map after the call and the boolean it returns. -/
def Map.parse (m : Map) (env : GoString) : Option (Map × Bool) := do
  let (key, val) ← ParsePair env
  if key ≠ [] ∧ val ≠ [] then
    pure (m.set key val, true)
  else
    pure (m, false)

/-- The variables of the loop of `ParseFlagArgs`. -/
structure FlagState where
  /-- The count `n`. -/
  n : Nat
  /-- The destination map. -/
  dest : Map
  /-- The flag `nextIsPair`. -/
  nextIsPair : Bool

/-- The call `dest.parse(s)` followed by `n++` when it returns true. -/
def FlagState.parseCount (st : FlagState) (s : GoString) : Option FlagState := do
  let (d, ok) ← st.dest.parse s
  pure { st with dest := d, n := if ok then st.n + 1 else st.n }

/-- The second half of the loop body of `ParseFlagArgs`: the tests against the short marker
`sd` and the long marker `dd`. -/
def flagMarker (sd dd : GoString) (st : FlagState) (arg : GoString) : Option FlagState :=
  if Index arg sd = 0 then
    if arg.length = sd.length then
      pure { st with nextIsPair := true }
    else do
      let s ← sliceFrom arg ((sd.length : Int) + 1)
      st.parseCount s
  else if Index arg dd = 0 then
    if arg.length = dd.length then
      pure { st with nextIsPair := true }
    else do
      let s ← sliceFrom arg ((dd.length : Int) + 1)
      st.parseCount s
  else
    pure st

/-- One iteration of the loop of `ParseFlagArgs`. -/
def flagStep (sd dd : GoString) (st : FlagState) (arg : GoString) : Option FlagState :=
  if st.nextIsPair then do
    let a0 ← index arg 0
    if a0 ≠ byteDash then
      let st1 ← st.parseCount arg
      pure { st1 with nextIsPair := false }
    else
      flagMarker sd dd st arg
  else
    flagMarker sd dd st arg

/-- The loop `for _, arg := range args` of `ParseFlagArgs`. -/
def flagLoop (sd dd : GoString) : List GoString → FlagState → Option FlagState
  | [], st => some st
  | arg :: rest, st => (flagStep sd dd st arg).bind (flagLoop sd dd rest)

/-- The function `ParseFlagArgs`: the count it returns and the destination map after the
call; `none` is a run-time panic. -/
def ParseFlagArgs (flag : GoString) (args : List GoString) (dest : Map) : Option (Nat × Map) :=
  if flag = [] ∨ args.length = 0 then
    some (0, dest)
  else
    let sd := str "-" ++ flag
    let dd := str "--" ++ flag
    (flagLoop sd dd args { n := 0, dest := dest, nextIsPair := false }).map
      (fun st => (st.n, st.dest))

/-- The statements of `ParsePair` from `val = split[1]` on (the quote stripping), as a function
of `split[1]`; `ParsePair_split` shows that `ParsePair` runs exactly this on the value part. -/
def stripQuotes (val : GoString) : Option GoString :=
  if val = [] then
    pure val
  else do
    let last : Int := (val.length : Int) - 1
    let v0 ← index val 0
    let vl ← index val last
    if (v0 = runeDblQuot ∨ v0 = runeQuot) ∧ v0 = vl then
      slice val 1 last
    else
      pure val

/-- The loop of `ParseSlice`: `n` counts the calls of `dest.parse` that return true. -/
def parseSliceLoop : List GoString → Nat → Map → Option (Nat × Map)
  | [], n, dest => some (n, dest)
  | e :: rest, n, dest =>
    (dest.parse e).bind (fun r => parseSliceLoop rest (if r.2 then n + 1 else n) r.1)

/-- The function `ParseSlice`: the count it returns and the destination map after the call;
`none` is a run-time panic. -/
def ParseSlice (env : List GoString) (dest : Map) : Option (Nat × Map) :=
  parseSliceLoop env 0 dest

/-- The method `Map.Merge`.  The argument `e` is a Go map: it is given as the list of its
entries in the order in which `range` visits them (each key once, in any order). -/
def Map.Merge (m : Map) (e : List (GoString × GoString)) : Map :=
  e.foldl (fun acc kv => acc.set kv.1 kv.2) m

/-- The function `cleanLine`. -/
def cleanLine (line : GoString) : GoString :=
  line

/-- The library function `errs.Wrap` of `github.com/roeldev/go-errs` on the error of the
scanner: a nil error (`none`) stays nil, another error stays an error. -/
def Wrap (err : Option GoString) : Option GoString :=
  err

/-- The loop of `Read` over the lines that `scanner.Text()` yields; `TrimSpace` stands for the
library function `strings.TrimSpace`. -/
def readLoop (TrimSpace : GoString → GoString) : List GoString → Nat → Map → Option (Nat × Map)
  | [], n, dest => some (n, dest)
  | text :: rest, n, dest =>
    let line := TrimSpace text
    if line = [] then
      readLoop TrimSpace rest n dest
    else do
      let c ← index line 0
      if c = runeHash then
        readLoop TrimSpace rest n dest
      else
        let r ← dest.parse (cleanLine line)
        readLoop TrimSpace rest (if r.2 then n + 1 else n) r.1

/-- The function `Read` on a stream given by the lines the scanner yields and the error
`scanErr` the scanner ends with (`none` when reading did not fail): the count, the error it
returns and the destination map after the call; `none` is a run-time panic. -/
def Read (TrimSpace : GoString → GoString) (lines : List GoString) (scanErr : Option GoString)
    (dest : Map) : Option (Nat × Option GoString × Map) :=
  (readLoop TrimSpace lines 0 dest).map (fun r => (r.1, Wrap scanErr, r.2))

/-- The bytes that `strings.TrimSpace` removes from a string of ASCII bytes:
tab, line feed, vertical tab, form feed, carriage return and space. -/
def asciiSpace (b : Byte) : Bool :=
  b = 9 || b = 10 || b = 11 || b = 12 || b = 13 || b = 32

/-- The library function `strings.TrimSpace` on a string of ASCII bytes. -/
def trimAsciiSpace (s : GoString) : GoString :=
  ((s.dropWhile asciiSpace).reverse.dropWhile asciiSpace).reverse

/-- The lines that the claim about `Read` hands to `ParseSlice`: each line trimmed, the lines
that are then empty or begin with `#` dropped. -/
def cleanedLines (TrimSpace : GoString → GoString) (lines : List GoString) : List GoString :=
  (lines.map TrimSpace).filter (fun l => decide (l ≠ [] ∧ l.head? ≠ some runeHash))

/-- A token that `Map.parse` stores: `ParsePair` returns a non-empty key and a non-empty
value. -/
def accepted (e : GoString) : Bool :=
  match ParsePair e with
  | some (k, v) => decide (k ≠ [] ∧ v ≠ [])
  | none => false

/-- Every entry of the map has a non-empty key and a non-empty value. -/
def Map.NonEmptyEntries (m : Map) : Prop :=
  ∀ k v, m k = some v → k ≠ [] ∧ v ≠ []

/-! ## Library functions -/

theorem indexFrom_ge (sep s : GoString) (k : Nat) :
    indexFrom sep s k = -1 ∨ (k : Int) ≤ indexFrom sep s k := by
  induction s generalizing k with
  | nil => unfold indexFrom; split <;> simp
  | cons c cs ih =>
    unfold indexFrom
    split
    · simp
    · rcases ih (k + 1) with h | h
      · exact Or.inl h
      · right; push_cast at h; omega

theorem Index_eq_zero_iff (s sep : GoString) : Index s sep = 0 ↔ sep <+: s := by
  unfold Index
  cases s with
  | nil =>
    unfold indexFrom
    by_cases h : sep = [] <;> simp [h]
  | cons c cs =>
    unfold indexFrom
    by_cases h : sep.isPrefixOf (c :: cs) = true
    · simp [h, List.isPrefixOf_iff_prefix.mp h]
    · have hn : ¬ sep <+: c :: cs := fun hp => h (List.isPrefixOf_iff_prefix.mpr hp)
      have h1 : indexFrom sep cs 1 ≠ 0 := by
        rcases indexFrom_ge sep cs 1 with h1 | h1 <;> omega
      simp [h, hn, h1]

theorem indexFrom_single_not_mem (c : Byte) (s : GoString) (k : Nat) (h : c ∉ s) :
    indexFrom [c] s k = -1 := by
  induction s generalizing k with
  | nil => simp [indexFrom]
  | cons x xs ih =>
    simp only [List.mem_cons, not_or] at h
    unfold indexFrom
    have hx : List.isPrefixOf [c] (x :: xs) = false := by simp [List.isPrefixOf, h.1]
    simp [hx, ih (k + 1) h.2]

theorem indexFrom_single_first (c : Byte) (pre post : GoString) (k : Nat) (h : c ∉ pre) :
    indexFrom [c] (pre ++ c :: post) k = ((k + pre.length : Nat) : Int) := by
  induction pre generalizing k with
  | nil => simp [indexFrom, List.isPrefixOf]
  | cons x xs ih =>
    simp only [List.mem_cons, not_or] at h
    simp [indexFrom, List.isPrefixOf, h.1, ih (k + 1) h.2]
    omega

theorem SplitAfterN_no_sep (c : Byte) (s : GoString) (h : c ∉ s) :
    SplitAfterN s [c] 2 = [s] := by
  simp [SplitAfterN, genSplitLoop, Index, indexFrom_single_not_mem c s 0 h]

theorem SplitAfterN_first_sep (c : Byte) (pre post : GoString) (h : c ∉ pre) :
    SplitAfterN (pre ++ c :: post) [c] 2 = [pre ++ [c], post] := by
  have ht : List.take (pre.length + 1) (pre ++ c :: post) = pre ++ [c] := by
    have : pre ++ c :: post = (pre ++ [c]) ++ post := by simp
    rw [this]
    exact List.take_left' (by simp)
  have hlt : ¬ ((pre.length : Int) < 0) := by omega
  simp [SplitAfterN, genSplitLoop, Index, indexFrom_single_first c pre post 0 h, ht, hlt]

/-! ## The shape of `ParsePair` -/

theorem sliceFrom_one_cons (c : Byte) (s : GoString) : sliceFrom (c :: s) 1 = some s := by
  simp [sliceFrom, slice]

theorem slice_dropLast_append (a : GoString) (x : Byte) :
    slice (a ++ [x]) 0 (((a ++ [x]).length : Int) - 1) = some a := by
  have h : (((a ++ [x]).length : Int) - 1) = (a.length : Int) := by simp
  rw [h]
  simp [slice]

theorem ParsePair_no_sep (c : Byte) (s : GoString) (h : byteEq ∉ s) :
    ParsePair (c :: s) = some ([], []) := by
  simp [ParsePair, sliceFrom_one_cons, SplitAfterN_no_sep byteEq s h]

theorem ParsePair_split (c : Byte) (pre v : GoString) (h : byteEq ∉ pre) :
    ParsePair (c :: (pre ++ byteEq :: v))
      = (stripQuotes v).map (fun w => (stringOfByte c ++ pre, w)) := by
  have hk : slice (stringOfByte c ++ (pre ++ [byteEq])) 0
      (((stringOfByte c ++ (pre ++ [byteEq])).length : Int) - 1)
      = some (stringOfByte c ++ pre) := by
    have := slice_dropLast_append (stringOfByte c ++ pre) byteEq
    simpa [List.append_assoc] using this
  simp only [ParsePair, sliceFrom_one_cons, SplitAfterN_first_sep byteEq pre v h,
    Option.bind_eq_bind, Option.some_bind, Option.pure_def]
  have h0 : index (c :: (pre ++ byteEq :: v)) 0 = some c := by simp [index]
  rw [h0]
  simp only [Option.some_bind, hk, stripQuotes, Option.pure_def, Option.bind_eq_bind]
  by_cases hv : v = []
  · simp [hv]
  · simp only [hv, if_false]
    cases index v 0 with
    | none => simp
    | some v0 =>
      cases index v ((v.length : Int) - 1) with
      | none => simp
      | some vl =>
        simp only [Option.some_bind]
        split
        · cases slice v 1 ((v.length : Int) - 1) <;> simp
        · simp

theorem stripQuotes_nil : stripQuotes [] = some [] := by
  simp [stripQuotes]

theorem index_zero_cons (c : Byte) (s : GoString) : index (c :: s) 0 = some c := by
  simp [index]

theorem index_last (s : GoString) (hs : s ≠ []) :
    index s ((s.length : Int) - 1) = s.getLast? := by
  have hpos : 0 < s.length := List.length_pos.mpr hs
  have h0 : (0 : Int) ≤ (s.length : Int) - 1 := by omega
  have h1 : ((s.length : Int) - 1).toNat = s.length - 1 := by omega
  simp [index, h0, h1, List.getLast?_eq_getElem?]

theorem stripQuotes_quoted (q : Byte) (w : GoString) (hq : q = runeDblQuot ∨ q = runeQuot) :
    stripQuotes (q :: (w ++ [q])) = some w := by
  have hl : index (q :: (w ++ [q])) (((q :: (w ++ [q])).length : Int) - 1) = some q := by
    have e : q :: (w ++ [q]) = (q :: w) ++ [q] := rfl
    rw [index_last _ (by simp), e, List.getLast?_concat]
  have hs : slice (q :: (w ++ [q])) 1 (((q :: (w ++ [q])).length : Int) - 1) = some w := by
    have e : (((q :: (w ++ [q])).length : Int) - 1) = ((w.length + 1 : Nat) : Int) := by
      simp
    rw [e]
    simp [slice]
  simp only [stripQuotes, index_zero_cons, hl, hs, Option.bind_eq_bind, Option.some_bind]
  simp [hq]

theorem stripQuotes_plain (v : GoString)
    (h : ¬ ∃ q, (q = runeDblQuot ∨ q = runeQuot) ∧ v.head? = some q ∧ v.getLast? = some q) :
    stripQuotes v = some v := by
  cases v with
  | nil => exact stripQuotes_nil
  | cons c s =>
    have hl := index_last (c :: s) (by simp)
    simp only [stripQuotes, index_zero_cons, hl, Option.bind_eq_bind, Option.some_bind]
    cases hg : (c :: s).getLast? with
    | none => simp at hg
    | some l =>
      have hn : ¬ ((c = runeDblQuot ∨ c = runeQuot) ∧ c = l) := by
        rintro ⟨hq, rfl⟩
        exact h ⟨c, hq, by simp, hg⟩
      simp [hn]

theorem stripQuotes_single (q : Byte) (hq : q = runeDblQuot ∨ q = runeQuot) :
    stripQuotes [q] = none := by
  rcases hq with rfl | rfl <;> decide

/-! ## The separator as an index -/

theorem split_at_first_eq (raw : GoString) (i : Nat) (h1 : 1 ≤ i)
    (hi : raw[i]? = some byteEq) (hmin : ∀ j, 1 ≤ j → j < i → raw[j]? ≠ some byteEq) :
    ∃ c pre, raw = c :: (pre ++ byteEq :: raw.drop (i + 1)) ∧ byteEq ∉ pre
      ∧ raw.take i = c :: pre := by
  cases raw with
  | nil => simp at hi
  | cons c rest =>
    obtain ⟨k, rfl⟩ : ∃ k, i = k + 1 := ⟨i - 1, by omega⟩
    simp only [List.getElem?_cons_succ] at hi
    refine ⟨c, rest.take k, ?_, ?_, by simp⟩
    · have hlt : k < rest.length := by
        by_contra hge
        rw [List.getElem?_eq_none (by omega)] at hi
        exact Option.noConfusion hi
      have hget : rest[k] = byteEq := by
        rw [List.getElem?_eq_getElem hlt] at hi
        exact Option.some.inj hi
      have hd : rest.drop k = byteEq :: rest.drop (k + 1) := by
        rw [← hget]; exact List.drop_eq_getElem_cons hlt
      simp only [List.drop_succ_cons]
      rw [← hd, List.take_append_drop]
    · intro hmem
      obtain ⟨j, hj⟩ := List.mem_iff_getElem?.mp hmem
      rw [List.getElem?_take] at hj
      split at hj
      · exact hmin (j + 1) (by omega) (by omega) (by simpa using hj)
      · exact Option.noConfusion hj

theorem not_mem_of_no_eq_index (c : Byte) (s : GoString)
    (h : ∀ i, 1 ≤ i → (c :: s)[i]? ≠ some byteEq) : byteEq ∉ s := by
  intro hmem
  obtain ⟨j, hj⟩ := List.mem_iff_getElem?.mp hmem
  exact h (j + 1) (by omega) (by simpa using hj)

theorem no_eq_index_of_not_mem (raw : GoString) (h : byteEq ∉ raw.tail) :
    ∀ i, 1 ≤ i → raw[i]? ≠ some byteEq := by
  intro i hi he
  obtain ⟨k, rfl⟩ : ∃ k, i = k + 1 := ⟨i - 1, by omega⟩
  cases raw with
  | nil => simp at he
  | cons c s =>
    simp only [List.getElem?_cons_succ] at he
    exact h (List.mem_iff_getElem?.mpr ⟨k, he⟩)

theorem no_eq_before_of_not_mem (raw : GoString) (i : Nat) (h : byteEq ∉ (raw.take i).tail) :
    ∀ j, 1 ≤ j → j < i → raw[j]? ≠ some byteEq := by
  intro j hj hlt he
  refine no_eq_index_of_not_mem (raw.take i) h j hj ?_
  rw [List.getElem?_take, if_pos hlt]
  exact he

theorem stringOfByte_ascii (c : Byte) (h : c.val < 128) : stringOfByte c = [c] := by
  have e : (Fin.ofNat c.val : Byte) = c := by
    apply Fin.ext
    simp only [Fin.ofNat]
    exact Nat.mod_eq_of_lt c.isLt
  simp [stringOfByte, encodeRune, h, e]

/-- The split of `ParsePair` when the first byte is below 0x80: with the first `=` at an
index `≥ 1` at `i` and an unquoted value part, the result is `(raw[0:i], raw[i+1:])`. -/
theorem ParsePair_unquoted_of_ascii (raw : GoString) (i : Nat) (h1 : 1 ≤ i)
    (hi : raw[i]? = some byteEq) (hmin : ∀ j, 1 ≤ j → j < i → raw[j]? ≠ some byteEq)
    (hascii : ∀ c, raw.head? = some c → c.val < 128)
    (hnq : ¬ ∃ q, (q = runeDblQuot ∨ q = runeQuot) ∧ (raw.drop (i + 1)).head? = some q
      ∧ (raw.drop (i + 1)).getLast? = some q) :
    ParsePair raw = some (raw.take i, raw.drop (i + 1)) := by
  obtain ⟨c, pre, hraw, hpre, htake⟩ := split_at_first_eq raw i h1 hi hmin
  rw [htake]
  generalize raw.drop (i + 1) = v at hraw hnq
  subst hraw
  have hc : c.val < 128 := hascii c rfl
  rw [ParsePair_split c pre v hpre, stripQuotes_plain v hnq, stringOfByte_ascii c hc]
  rfl

/-! ## Claims about `ParsePair` -/

/-- C1: the key is not always `raw[0:i]`.  On the UTF-8 text `é=v` (bytes C3 A9 3D 76) the
first `=` at an index `≥ 1` is at index 2 and the value `v` is not quoted, yet `ParsePair`
returns the key C3 83 A9, which differs from `raw[0:2]` = C3 A9: the conversion
`string(pair[0])` re-encodes the first byte as a code point. -/
theorem ParsePair_first_byte_reencoded :
    (str "é=v")[2]? = some byteEq ∧ (str "é=v")[1]? ≠ some byteEq
      ∧ (str "é=v").drop 3 = str "v"
      ∧ ParsePair (str "é=v") = some ([0xC3, 0x83, 0xA9], str "v")
      ∧ (str "é=v").take 2 = [0xC3, 0xA9]
      ∧ ParsePair (str "é=v") ≠ some ((str "é=v").take 2, (str "é=v").drop 3) := by
  decide

/-- C2: when the first `=` at an index `≥ 1` is at `i` and the value part `raw[i+1:]` has
length at least 2 and begins and ends with the same quote character `q` (double or single),
`ParsePair` returns, and its value is the value part without its first and last byte. -/
theorem ParsePair_quoted_value (raw : GoString) (i : Nat) (q : Byte) (h1 : 1 ≤ i)
    (hi : raw[i]? = some byteEq) (hmin : ∀ j, 1 ≤ j → j < i → raw[j]? ≠ some byteEq)
    (hq : q = runeDblQuot ∨ q = runeQuot) (hlen : 2 ≤ (raw.drop (i + 1)).length)
    (hfirst : (raw.drop (i + 1)).head? = some q)
    (hlast : (raw.drop (i + 1)).getLast? = some q) :
    ∃ key, ParsePair raw = some (key, ((raw.drop (i + 1)).drop 1).dropLast) := by
  obtain ⟨c, pre, hraw, hpre, -⟩ := split_at_first_eq raw i h1 hi hmin
  generalize raw.drop (i + 1) = v at hraw hlen hfirst hlast
  subst hraw
  obtain ⟨w, rfl⟩ : ∃ w, v = q :: (w ++ [q]) := by
    cases v with
    | nil => simp at hlen
    | cons a t =>
      simp only [List.head?_cons, Option.some.injEq] at hfirst
      subst hfirst
      have ht : t ≠ [] := by
        intro h0; subst h0; simp at hlen
      refine ⟨t.dropLast, ?_⟩
      have hl : t.getLast? = some a := by
        rw [← hlast]; cases t with
        | nil => exact absurd rfl ht
        | cons b u => simp [List.getLast?_cons_cons]
      have := List.dropLast_append_getLast? a hl
      rw [this]
  refine ⟨stringOfByte c ++ pre, ?_⟩
  rw [ParsePair_split c pre _ hpre, stripQuotes_quoted q w hq]
  simp

/-- Witness of C2 on the token bar='baz'. -/
theorem ParsePair_quoted_value_witness :
    ∃ key, ParsePair (str "bar='baz'") = some (key, str "baz") :=
  ParsePair_quoted_value (str "bar='baz'") 3 runeQuot (by decide) (by decide)
    (no_eq_before_of_not_mem _ _ (by decide)) (Or.inr rfl) (by decide) (by decide) (by decide)

/-- C3: a non-empty string with no `=` at any index `≥ 1` makes `ParsePair` return the
empty key and the empty value. -/
theorem ParsePair_no_separator (raw : GoString) (hne : raw ≠ [])
    (h : ∀ i, 1 ≤ i → raw[i]? ≠ some byteEq) : ParsePair raw = some ([], []) := by
  cases raw with
  | nil => exact absurd rfl hne
  | cons c s => exact ParsePair_no_sep c s (not_mem_of_no_eq_index c s h)

/-- Witness of C3 on a comment line. -/
theorem ParsePair_no_separator_witness :
    ParsePair (str "# some comment") = some ([], []) :=
  ParsePair_no_separator (str "# some comment") (by decide)
    (no_eq_index_of_not_mem _ (by decide))

/-! ## The loop of `ParseFlagArgs` -/

theorem str_dash : str "-" = [byteDash] := by decide

theorem str_dash_dash : str "--" = [byteDash, byteDash] := by decide

theorem str_eq : str "=" = [byteEq] := by decide

theorem short_not_prefix_long (f rest : GoString) (hf : f ≠ [])
    (hf0 : f.head? ≠ some byteDash) :
    ¬ (byteDash :: f) <+: (byteDash :: byteDash :: (f ++ rest)) := by
  cases f with
  | nil => exact absurd rfl hf
  | cons c t =>
    intro hp
    have h2 := (List.cons_prefix_cons.mp hp).2
    have h3 := (List.cons_prefix_cons.mp h2).1
    exact hf0 (by simp [h3])

theorem sliceFrom_after_marker (m kv : GoString) (c : Byte) :
    sliceFrom (m ++ c :: kv) ((m.length : Int) + 1) = some kv := by
  have h : ((m.length : Int) + 1).toNat = m.length + 1 := by omega
  have e : m ++ c :: kv = (m ++ [c]) ++ kv := by simp
  have hd : List.drop (m.length + 1) (m ++ c :: kv) = kv := by
    rw [e]; exact List.drop_left' (by simp)
  have hle : (m.length : Int) + 1 ≤ ((m ++ c :: kv).length : Int) := by
    simp only [List.length_append, List.length_cons]; push_cast; omega
  have h0 : (0 : Int) ≤ (m.length : Int) + 1 := by omega
  simp only [sliceFrom, slice, h0, hle, le_refl, and_self, if_true, h, Int.toNat_ofNat,
    List.take_length, hd]

theorem parseCount_stored (st : FlagState) (kv K V : GoString)
    (hp : ParsePair kv = some (K, V)) (hK : K ≠ []) (hV : V ≠ []) :
    st.parseCount kv = some { st with dest := st.dest.set K V, n := st.n + 1 } := by
  simp [FlagState.parseCount, Map.parse, hp, hK, hV]

theorem flagMarker_bare_short (sd dd : GoString) (st : FlagState) :
    flagMarker sd dd st sd = some { st with nextIsPair := true } := by
  have h : Index sd sd = 0 := (Index_eq_zero_iff sd sd).mpr (List.prefix_refl sd)
  simp [flagMarker, h]

theorem flagMarker_bare_long (sd dd : GoString) (st : FlagState) (h : ¬ sd <+: dd) :
    flagMarker sd dd st dd = some { st with nextIsPair := true } := by
  have h1 : Index dd sd ≠ 0 := fun e => h ((Index_eq_zero_iff dd sd).mp e)
  have h2 : Index dd dd = 0 := (Index_eq_zero_iff dd dd).mpr (List.prefix_refl dd)
  simp [flagMarker, h1, h2]

theorem flagMarker_inline_short (sd dd : GoString) (st : FlagState) (c : Byte)
    (kv : GoString) :
    flagMarker sd dd st (sd ++ c :: kv) = st.parseCount kv := by
  have h : Index (sd ++ c :: kv) sd = 0 :=
    (Index_eq_zero_iff _ sd).mpr (List.prefix_append sd _)
  simp [flagMarker, h, sliceFrom_after_marker]

theorem flagMarker_inline_long (sd dd : GoString) (st : FlagState) (c : Byte)
    (kv : GoString) (hn : ¬ sd <+: dd ++ c :: kv) :
    flagMarker sd dd st (dd ++ c :: kv) = st.parseCount kv := by
  have h1 : Index (dd ++ c :: kv) sd ≠ 0 := fun e => hn ((Index_eq_zero_iff _ sd).mp e)
  have h2 : Index (dd ++ c :: kv) dd = 0 :=
    (Index_eq_zero_iff _ dd).mpr (List.prefix_append dd _)
  simp [flagMarker, h1, h2, sliceFrom_after_marker]

theorem flagMarker_unrelated (sd dd : GoString) (st : FlagState) (arg : GoString)
    (h1 : ¬ sd <+: arg) (h2 : ¬ dd <+: arg) : flagMarker sd dd st arg = some st := by
  have e1 : Index arg sd ≠ 0 := fun e => h1 ((Index_eq_zero_iff arg sd).mp e)
  have e2 : Index arg dd ≠ 0 := fun e => h2 ((Index_eq_zero_iff arg dd).mp e)
  simp [flagMarker, e1, e2]

theorem flagStep_pair (sd dd : GoString) (st : FlagState) (kv K V : GoString)
    (hnext : st.nextIsPair = true) (hne : kv ≠ []) (h0 : kv.head? ≠ some byteDash)
    (hp : ParsePair kv = some (K, V)) (hK : K ≠ []) (hV : V ≠ []) :
    flagStep sd dd st kv
      = some { n := st.n + 1, dest := st.dest.set K V, nextIsPair := false } := by
  cases kv with
  | nil => exact absurd rfl hne
  | cons c t =>
    have hc : c ≠ byteDash := fun e => h0 (by simp [e])
    simp [flagStep, hnext, index_zero_cons, hc, parseCount_stored st _ K V hp hK hV]

theorem flagStep_dash_first (sd dd : GoString) (st : FlagState) (t : GoString) :
    flagStep sd dd st (byteDash :: t) = flagMarker sd dd st (byteDash :: t) := by
  cases h : st.nextIsPair <;> simp [flagStep, h, index_zero_cons]

theorem flagLoop_append (sd dd : GoString) (xs : List GoString) (y : GoString)
    (st : FlagState) :
    flagLoop sd dd (xs ++ [y]) st = (flagLoop sd dd xs st).bind (fun s => flagStep sd dd s y) := by
  induction xs generalizing st with
  | nil => simp [flagLoop]
  | cons x xs ih =>
    simp only [List.cons_append, flagLoop]
    cases flagStep sd dd st x with
    | none => rfl
    | some s => simpa using ih s

theorem flagLoop_unrelated (sd dd : GoString) (args : List GoString) (st : FlagState)
    (hst : st.nextIsPair = false) (h : ∀ a ∈ args, ¬ sd <+: a ∧ ¬ dd <+: a) :
    flagLoop sd dd args st = some st := by
  induction args with
  | nil => rfl
  | cons a rest ih =>
    have ha := h a (List.mem_cons_self a rest)
    have hs : flagStep sd dd st a = some st := by
      simp [flagStep, hst, flagMarker_unrelated sd dd st a ha.1 ha.2]
    simp only [flagLoop, hs, Option.some_bind]
    exact ih (fun b hb => h b (List.mem_cons_of_mem a hb))

theorem ParseFlagArgs_loop (f : GoString) (args : List GoString) (dest : Map) (hf : f ≠ []) :
    ParseFlagArgs f args dest
      = (flagLoop (byteDash :: f) (byteDash :: byteDash :: f) args
          { n := 0, dest := dest, nextIsPair := false }).map (fun st => (st.n, st.dest)) := by
  cases args with
  | nil => simp [ParseFlagArgs, flagLoop]
  | cons a rest => simp [ParseFlagArgs, hf, str_dash, str_dash_dash]

/-! ## Claims about `ParseFlagArgs` -/

/-- C4: on the flag e and the nine arguments of the mixed test, `ParseFlagArgs` returns the
count 3 and leaves the destination with foo = bar, qux = xoo and bar = baz.  The count is its
only result: the function builds no residual argument list. -/
theorem ParseFlagArgs_mixed_count_only :
    ParseFlagArgs (str "e")
      [str "-e", str "foo=bar", str "-e=empty", str "bar", str "--e=qux=xoo", str "-e",
        str "bar=baz", str "--skip", str "-e"] Map.empty
      = some (3, Map.ofList [(str "foo", str "bar"), (str "qux", str "xoo"),
          (str "bar", str "baz")]) := by
  rfl

/-- C5: for a non-empty flag name `f` not starting with a dash, and a pair `K=V` that
`ParsePair` splits into a non-empty `K` (not starting with a dash) and a non-empty `V`, the
short and long two-token forms and the short and long inline forms each make `ParseFlagArgs`
return 1 and leave the destination equal to `dest` with `K` set to `V` (every other key as
in `dest`). -/
theorem ParseFlagArgs_four_forms (f K V : GoString) (dest : Map) (hf : f ≠ [])
    (hf0 : f.head? ≠ some byteDash) (hp : ParsePair (K ++ str "=" ++ V) = some (K, V))
    (hK : K ≠ []) (hV : V ≠ []) (hK0 : K.head? ≠ some byteDash) :
    ParseFlagArgs f [str "-" ++ f, K ++ str "=" ++ V] dest = some (1, dest.set K V)
      ∧ ParseFlagArgs f [str "--" ++ f, K ++ str "=" ++ V] dest = some (1, dest.set K V)
      ∧ ParseFlagArgs f [str "-" ++ f ++ str "=" ++ (K ++ str "=" ++ V)] dest
          = some (1, dest.set K V)
      ∧ ParseFlagArgs f [str "--" ++ f ++ str "=" ++ (K ++ str "=" ++ V)] dest
          = some (1, dest.set K V) := by
  have hkv : K ++ str "=" ++ V ≠ [] := by simp [hK]
  have hkv0 : (K ++ str "=" ++ V).head? ≠ some byteDash := by
    cases K with
    | nil => exact absurd rfl hK
    | cons c t => simpa using hK0
  have a1 : str "-" ++ f = byteDash :: f := by simp [str_dash]
  have a2 : str "--" ++ f = byteDash :: byteDash :: f := by simp [str_dash_dash]
  generalize K ++ str "=" ++ V = kv at hp hkv hkv0 ⊢
  have a3 : str "-" ++ f ++ str "=" ++ kv = (byteDash :: f) ++ byteEq :: kv := by
    simp [str_dash, str_eq]
  have a4 : str "--" ++ f ++ str "=" ++ kv = (byteDash :: byteDash :: f) ++ byteEq :: kv := by
    simp [str_dash_dash, str_eq]
  have hn1 : ¬ (byteDash :: f) <+: byteDash :: byteDash :: f := by
    simpa using short_not_prefix_long f [] hf hf0
  have hn2 : ¬ (byteDash :: f) <+: (byteDash :: byteDash :: f) ++ byteEq :: kv := by
    simpa using short_not_prefix_long f (byteEq :: kv) hf hf0
  have e1 : ∀ st : FlagState, flagStep (byteDash :: f) (byteDash :: byteDash :: f) st
      (byteDash :: f) = some { st with nextIsPair := true } := fun st => by
    rw [flagStep_dash_first, flagMarker_bare_short]
  have e2 : ∀ st : FlagState, flagStep (byteDash :: f) (byteDash :: byteDash :: f) st
      (byteDash :: byteDash :: f) = some { st with nextIsPair := true } := fun st => by
    rw [flagStep_dash_first, flagMarker_bare_long _ _ _ hn1]
  have e3 : ∀ st : FlagState, flagStep (byteDash :: f) (byteDash :: byteDash :: f) st
      ((byteDash :: f) ++ byteEq :: kv) = st.parseCount kv := fun st => by
    rw [List.cons_append, flagStep_dash_first, ← List.cons_append]
    exact flagMarker_inline_short (byteDash :: f) _ st byteEq kv
  have e4 : ∀ st : FlagState, flagStep (byteDash :: f) (byteDash :: byteDash :: f) st
      ((byteDash :: byteDash :: f) ++ byteEq :: kv) = st.parseCount kv := fun st => by
    rw [List.cons_append, flagStep_dash_first, ← List.cons_append]
    exact flagMarker_inline_long (byteDash :: f) _ st byteEq kv hn2
  have e5 : ∀ st : FlagState, st.nextIsPair = true →
      flagStep (byteDash :: f) (byteDash :: byteDash :: f) st kv
        = some { n := st.n + 1, dest := st.dest.set K V, nextIsPair := false } :=
    fun st h => flagStep_pair _ _ st kv K V h hkv hkv0 hp hK hV
  have e6 := fun st : FlagState => parseCount_stored st kv K V hp hK hV
  rw [a3, a4, a1, a2]
  refine ⟨?_, ?_, ?_, ?_⟩
  · rw [ParseFlagArgs_loop f _ dest hf]
    simp only [flagLoop, e1, Option.some_bind]
    rw [e5 _ rfl]
    rfl
  · rw [ParseFlagArgs_loop f _ dest hf]
    simp only [flagLoop, e2, Option.some_bind]
    rw [e5 _ rfl]
    rfl
  · rw [ParseFlagArgs_loop f _ dest hf]
    simp only [flagLoop, e3, e6, Option.some_bind]
    rfl
  · rw [ParseFlagArgs_loop f _ dest hf]
    simp only [flagLoop, e4, e6, Option.some_bind]
    rfl

/-- Witness of C5: the flag e and the pair foo=bar, on an empty destination. -/
theorem ParseFlagArgs_four_forms_witness :
    ParseFlagArgs (str "e") [str "-" ++ str "e", str "foo" ++ str "=" ++ str "bar"] Map.empty
        = some (1, Map.empty.set (str "foo") (str "bar"))
      ∧ ParseFlagArgs (str "e") [str "--" ++ str "e", str "foo" ++ str "=" ++ str "bar"]
          Map.empty = some (1, Map.empty.set (str "foo") (str "bar"))
      ∧ ParseFlagArgs (str "e")
          [str "-" ++ str "e" ++ str "=" ++ (str "foo" ++ str "=" ++ str "bar")] Map.empty
          = some (1, Map.empty.set (str "foo") (str "bar"))
      ∧ ParseFlagArgs (str "e")
          [str "--" ++ str "e" ++ str "=" ++ (str "foo" ++ str "=" ++ str "bar")] Map.empty
          = some (1, Map.empty.set (str "foo") (str "bar")) :=
  ParseFlagArgs_four_forms (str "e") (str "foo") (str "bar") Map.empty (by decide) (by decide)
    (by decide) (by decide) (by decide) (by decide)

/-- C6: an empty-valued pair on the command line is not stored.  `ParsePair` splits the token
empty= into the key empty and the empty value, and for the flag e and the arguments -e, empty=
`ParseFlagArgs` returns 0 and leaves the empty destination empty. -/
theorem ParseFlagArgs_empty_value_dropped :
    ParsePair (str "empty=") = some (str "empty", [])
      ∧ ParseFlagArgs (str "e") [str "-e", str "empty="] Map.empty = some (0, Map.empty) := by
  exact ⟨by decide, rfl⟩

/-- C7: a longer flag sharing the marker as a prefix is taken for the flag.  For the flag e
the single argument -env=foo=bar begins with the marker -e followed by n, not by =, yet
`ParseFlagArgs` returns 1 and stores the key v with the value foo=bar. -/
theorem ParseFlagArgs_shared_marker_stored :
    (str "-e") <+: str "-env=foo=bar" ∧ (str "-env=foo=bar")[2]? ≠ some byteEq
      ∧ ParseFlagArgs (str "e") [str "-env=foo=bar"] Map.empty
          = some (1, Map.ofList [(str "v", str "foo=bar")]) := by
  exact ⟨by decide, by decide, rfl⟩

/-- C8: a pair that does not follow a bare flag is parsed all the same.  For the flag e and
the arguments -e, -t, foo=bar the token foo=bar follows -t, yet `ParseFlagArgs` returns 1 and
stores foo = bar: `nextIsPair` stays set across the argument -t. -/
theorem ParseFlagArgs_pending_pair_survives :
    ¬ (str "-e") <+: str "foo=bar" ∧ ¬ (str "--e") <+: str "foo=bar"
      ∧ str "-t" ≠ str "-e" ∧ str "-t" ≠ str "--e"
      ∧ ParseFlagArgs (str "e") [str "-e", str "-t", str "foo=bar"] Map.empty
          = some (1, Map.ofList [(str "foo", str "bar")]) := by
  exact ⟨by decide, by decide, by decide, by decide, rfl⟩

/-- C9: when no argument begins with the short marker or with the long marker of the flag,
`ParseFlagArgs` returns 0 and leaves the destination as it was, whatever the arguments look
like. -/
theorem ParseFlagArgs_no_marker (f : GoString) (args : List GoString) (dest : Map)
    (h : ∀ a ∈ args, ¬ (str "-" ++ f) <+: a ∧ ¬ (str "--" ++ f) <+: a) :
    ParseFlagArgs f args dest = some (0, dest) := by
  by_cases hf : f = []
  · simp [ParseFlagArgs, hf]
  · have h2 : ∀ a ∈ args, ¬ (byteDash :: f) <+: a ∧ ¬ (byteDash :: byteDash :: f) <+: a := by
      intro a ha
      have := h a ha
      simpa [str_dash, str_dash_dash] using this
    rw [ParseFlagArgs_loop f args dest hf, flagLoop_unrelated _ _ args _ rfl h2]
    rfl

/-- Witness of C9: arguments of the shape key=value and another flag, for the flag e. -/
theorem ParseFlagArgs_no_marker_witness :
    ParseFlagArgs (str "e") [str "foo=bar", str "--skip", str "-t=a=b"]
      (Map.ofList [(str "k", str "v")]) = some (0, Map.ofList [(str "k", str "v")]) :=
  ParseFlagArgs_no_marker (str "e") [str "foo=bar", str "--skip", str "-t=a=b"]
    (Map.ofList [(str "k", str "v")]) (by decide)

/-- C10: for a non-empty flag name not starting with a dash, a bare short or long flag added
as the last argument changes nothing: `ParseFlagArgs` gives the same result (the same count
and the same destination, or the same panic) as without it. -/
theorem ParseFlagArgs_trailing_bare_flag (f : GoString) (args : List GoString) (dest : Map)
    (hf : f ≠ []) (hf0 : f.head? ≠ some byteDash) :
    ParseFlagArgs f (args ++ [str "-" ++ f]) dest = ParseFlagArgs f args dest
      ∧ ParseFlagArgs f (args ++ [str "--" ++ f]) dest = ParseFlagArgs f args dest := by
  have a1 : str "-" ++ f = byteDash :: f := by simp [str_dash]
  have a2 : str "--" ++ f = byteDash :: byteDash :: f := by simp [str_dash_dash]
  have hn1 : ¬ (byteDash :: f) <+: byteDash :: byteDash :: f := by
    simpa using short_not_prefix_long f [] hf hf0
  rw [a1, a2]
  simp only [ParseFlagArgs_loop f _ dest hf, flagLoop_append]
  constructor
  · cases flagLoop (byteDash :: f) (byteDash :: byteDash :: f) args
        { n := 0, dest := dest, nextIsPair := false } with
    | none => rfl
    | some s =>
      simp only [Option.some_bind]
      rw [flagStep_dash_first, flagMarker_bare_short]
      rfl
  · cases flagLoop (byteDash :: f) (byteDash :: byteDash :: f) args
        { n := 0, dest := dest, nextIsPair := false } with
    | none => rfl
    | some s =>
      simp only [Option.some_bind]
      rw [flagStep_dash_first, flagMarker_bare_long _ _ _ hn1]
      rfl

/-- Witness of C10: a bare flag after a stored pair, for the flag e. -/
theorem ParseFlagArgs_trailing_bare_flag_witness :
    ParseFlagArgs (str "e") ([str "-e", str "foo=bar"] ++ [str "-" ++ str "e"]) Map.empty
        = ParseFlagArgs (str "e") [str "-e", str "foo=bar"] Map.empty
      ∧ ParseFlagArgs (str "e") ([str "-e", str "foo=bar"] ++ [str "--" ++ str "e"]) Map.empty
        = ParseFlagArgs (str "e") [str "-e", str "foo=bar"] Map.empty :=
  ParseFlagArgs_trailing_bare_flag (str "e") [str "-e", str "foo=bar"] Map.empty
    (by decide) (by decide)

/-! ## The loop of `ParseSlice` -/

theorem parse_of_none (m : Map) (e : GoString) (h : ParsePair e = none) : m.parse e = none := by
  simp [Map.parse, h]

theorem parse_of_accepted (m : Map) (e k v : GoString) (h : ParsePair e = some (k, v))
    (hk : k ≠ []) (hv : v ≠ []) : m.parse e = some (m.set k v, true) := by
  simp [Map.parse, h, hk, hv]

theorem parse_of_rejected (m : Map) (e k v : GoString) (h : ParsePair e = some (k, v))
    (hr : k = [] ∨ v = []) : m.parse e = some (m, false) := by
  have : ¬ (k ≠ [] ∧ v ≠ []) := by
    rcases hr with hr | hr <;> simp [hr]
  simp only [Map.parse, h, Option.bind_eq_bind, Option.some_bind, if_neg this]
  rfl

theorem parse_cases (m : Map) (e : GoString) :
    (ParsePair e = none ∧ m.parse e = none)
      ∨ (∃ k v, ParsePair e = some (k, v) ∧ k ≠ [] ∧ v ≠ [] ∧ accepted e = true
          ∧ m.parse e = some (m.set k v, true))
      ∨ (∃ k v, ParsePair e = some (k, v) ∧ (k = [] ∨ v = []) ∧ accepted e = false
          ∧ m.parse e = some (m, false)) := by
  cases h : ParsePair e with
  | none => exact Or.inl ⟨rfl, parse_of_none m e h⟩
  | some kv =>
    obtain ⟨k, v⟩ := kv
    by_cases hkv : k ≠ [] ∧ v ≠ []
    · refine Or.inr (Or.inl ⟨k, v, rfl, hkv.1, hkv.2, ?_, parse_of_accepted m e k v h hkv.1 hkv.2⟩)
      simp [accepted, h, hkv.1, hkv.2]
    · have hr : k = [] ∨ v = [] := by
        by_cases hk : k = []
        · exact Or.inl hk
        · exact Or.inr (by_contra fun hv => hkv ⟨hk, hv⟩)
      refine Or.inr (Or.inr ⟨k, v, rfl, hr, ?_, parse_of_rejected m e k v h hr⟩)
      rcases hr with hr | hr <;> simp [accepted, h, hr]

theorem parseSliceLoop_append (xs ys : List GoString) (n : Nat) (dest : Map) :
    parseSliceLoop (xs ++ ys) n dest
      = (parseSliceLoop xs n dest).bind (fun r => parseSliceLoop ys r.1 r.2) := by
  induction xs generalizing n dest with
  | nil => simp [parseSliceLoop]
  | cons x xs ih =>
    simp only [List.cons_append, parseSliceLoop]
    cases dest.parse x with
    | none => rfl
    | some r => simpa using ih _ _

theorem parseSliceLoop_isSome_iff (env : List GoString) (n : Nat) (dest : Map) :
    (parseSliceLoop env n dest).isSome ↔ ∀ e ∈ env, (ParsePair e).isSome := by
  induction env generalizing n dest with
  | nil => simp [parseSliceLoop]
  | cons x xs ih =>
    simp only [parseSliceLoop, List.mem_cons, forall_eq_or_imp]
    rcases parse_cases dest x with ⟨h1, h2⟩ | ⟨k, v, h1, -, -, -, h2⟩ | ⟨k, v, h1, -, -, h2⟩
    · simp [h1, h2]
    · simp [h1, h2, ih]
    · simp [h1, h2, ih]

theorem parseSliceLoop_count (env : List GoString) (n : Nat) (dest : Map) (n1 : Nat) (d : Map)
    (h : parseSliceLoop env n dest = some (n1, d)) : n1 = n + env.countP accepted := by
  induction env generalizing n dest with
  | nil =>
    simp only [parseSliceLoop, Option.some.injEq, Prod.mk.injEq] at h
    simp [h.1]
  | cons x xs ih =>
    simp only [parseSliceLoop] at h
    rcases parse_cases dest x with ⟨-, h2⟩ | ⟨k, v, -, -, -, ha, h2⟩ | ⟨k, v, -, -, ha, h2⟩
    · simp [h2] at h
    · rw [h2] at h
      have := ih _ _ h
      simp only [if_true] at this
      rw [this, List.countP_cons_of_pos _ _ ha]
      omega
    · rw [h2] at h
      have := ih _ _ h
      simp only [Bool.false_eq_true, if_false] at this
      rw [this, List.countP_cons_of_neg _ _ (by simp [ha])]

theorem parseSliceLoop_frame (env : List GoString) (n : Nat) (dest : Map) (n1 : Nat) (d : Map)
    (key : GoString) (h : parseSliceLoop env n dest = some (n1, d))
    (hno : ∀ e ∈ env, ∀ v, ParsePair e = some (key, v) → key = [] ∨ v = []) :
    d key = dest key := by
  induction env generalizing n dest with
  | nil =>
    simp only [parseSliceLoop, Option.some.injEq, Prod.mk.injEq] at h
    rw [h.2]
  | cons x xs ih =>
    simp only [parseSliceLoop] at h
    have hxs : ∀ e ∈ xs, ∀ v, ParsePair e = some (key, v) → key = [] ∨ v = [] :=
      fun e he => hno e (List.mem_cons_of_mem x he)
    rcases parse_cases dest x with ⟨-, h2⟩ | ⟨k, v, h1, hk, hv, -, h2⟩ | ⟨k, v, -, -, -, h2⟩
    · simp [h2] at h
    · rw [h2] at h
      have := ih _ _ h hxs
      rw [this]
      have hne : key ≠ k := by
        intro hkk
        subst hkk
        rcases hno x (List.mem_cons_self x xs) v h1 with hc | hc
        · exact hk hc
        · exact hv hc
      simp [Map.set, hne]
    · rw [h2] at h
      exact ih _ _ h hxs

theorem parseSliceLoop_non_empty (env : List GoString) (n : Nat) (dest : Map) (n1 : Nat)
    (d : Map) (h : parseSliceLoop env n dest = some (n1, d)) (hd : dest.NonEmptyEntries) :
    d.NonEmptyEntries := by
  induction env generalizing n dest with
  | nil =>
    simp only [parseSliceLoop, Option.some.injEq, Prod.mk.injEq] at h
    rw [← h.2]; exact hd
  | cons x xs ih =>
    simp only [parseSliceLoop] at h
    rcases parse_cases dest x with ⟨-, h2⟩ | ⟨k, v, -, hk, hv, -, h2⟩ | ⟨k, v, -, -, -, h2⟩
    · simp [h2] at h
    · rw [h2] at h
      refine ih _ _ h ?_
      intro k1 v1 h1
      simp only [Map.set] at h1
      split at h1
      · rename_i hkk
        have := Option.some.inj h1
        subst this; subst hkk
        exact ⟨hk, hv⟩
      · exact hd k1 v1 h1
    · rw [h2] at h
      exact ih _ _ h hd

theorem ParseSlice_isSome_iff (env : List GoString) (dest : Map) :
    (ParseSlice env dest).isSome ↔ ∀ e ∈ env, (ParsePair e).isSome :=
  parseSliceLoop_isSome_iff env 0 dest

/-- The count of `ParseSlice`, whenever it returns: the number of accepted tokens. -/
theorem ParseSlice_count (env : List GoString) (dest : Map) (n : Nat) (d : Map)
    (h : ParseSlice env dest = some (n, d)) : n = env.countP accepted := by
  have := parseSliceLoop_count env 0 dest n d h
  omega

/-- The frame of `ParseSlice`, whenever it returns: a key that no token is stored under keeps
its entry. -/
theorem ParseSlice_frame (env : List GoString) (dest : Map) (n : Nat) (d : Map)
    (key : GoString) (h : ParseSlice env dest = some (n, d))
    (hno : ∀ e ∈ env, ∀ v, ParsePair e = some (key, v) → key = [] ∨ v = []) :
    d key = dest key :=
  parseSliceLoop_frame env 0 dest n d key h hno

/-- A list of tokens that `Map.parse` all rejects (`ParsePair` returns an empty key or an
empty value) makes `ParseSlice` return 0 and leaves the destination as it was. -/
theorem ParseSlice_rejected_only (env : List GoString) (dest : Map)
    (h : ∀ e ∈ env, ∃ k v, ParsePair e = some (k, v) ∧ (k = [] ∨ v = [])) :
    ParseSlice env dest = some (0, dest) := by
  unfold ParseSlice
  generalize 0 = n
  induction env with
  | nil => rfl
  | cons x xs ih =>
    obtain ⟨k, v, h1, hr⟩ := h x (List.mem_cons_self x xs)
    simp only [parseSliceLoop, parse_of_rejected dest x k v h1 hr, Option.some_bind]
    exact ih (fun e he => h e (List.mem_cons_of_mem x he))

/-! ## Claims about `ParseSlice` -/

/-- C11: `ParseSlice` does not return a count for every list of non-empty tokens.  The token
a=" (the value is a lone double quote) is not empty, `ParsePair` panics on it, and so does
`ParseSlice` on the list holding only this token.  On the three tokens of the example it
returns 3 and the destination FOO = bar, bar = baz, qux = #xoo. -/
theorem ParseSlice_panics_on_lone_quote :
    str "a=\"" ≠ [] ∧ ParsePair (str "a=\"") = none
      ∧ ParseSlice [str "a=\""] Map.empty = none
      ∧ ParseSlice [str "FOO=bar", str "bar='baz'", str "qux=\"#xoo\""] Map.empty
          = some (3, Map.ofList [(str "FOO", str "bar"), (str "bar", str "baz"),
              (str "qux", str "#xoo")]) := by
  exact ⟨by decide, by decide, rfl, rfl⟩

/-- C12: last write wins in `ParseSlice`.  The call returns exactly when `ParsePair` returns
on every token; and after a call that returned, for a token `e` of `env` that parses to a
non-empty key `k` and a non-empty value `v`, with no later token of `env` parsing to `k` with
a non-empty value, the destination holds `v` under `k`, whatever it held before. -/
theorem ParseSlice_last_write_wins (env : List GoString) (dest : Map) :
    ((ParseSlice env dest).isSome ↔ ∀ e ∈ env, (ParsePair e).isSome)
      ∧ ∀ n d, ParseSlice env dest = some (n, d) →
          ∀ pre e post k v, env = pre ++ e :: post → ParsePair e = some (k, v) →
            k ≠ [] → v ≠ [] →
            (∀ e1 ∈ post, ∀ v1, ParsePair e1 = some (k, v1) → v1 = []) → d k = some v := by
  refine ⟨ParseSlice_isSome_iff env dest, ?_⟩
  intro n d h pre e post k v henv hp hk hv hlast
  subst henv
  unfold ParseSlice at h
  rw [parseSliceLoop_append] at h
  cases h0 : parseSliceLoop pre 0 dest with
  | none => simp [h0] at h
  | some r =>
    simp only [h0, Option.some_bind, parseSliceLoop, parse_of_accepted r.2 e k v hp hk hv,
      if_true] at h
    have hf := parseSliceLoop_frame post _ _ n d k h
      (fun e1 he1 v1 h1 => Or.inr (hlast e1 he1 v1 h1))
    rw [hf]
    simp [Map.set]

/-- Witness of C12: the key a is written twice, over an earlier entry. -/
theorem ParseSlice_last_write_wins_witness :
    ParseSlice [str "a=1", str "a=2", str "b=3"] (Map.ofList [(str "a", str "0")])
        = some (3, Map.set (Map.set (Map.set (Map.ofList [(str "a", str "0")])
            (str "a") (str "1")) (str "a") (str "2")) (str "b") (str "3"))
      ∧ (Map.set (Map.set (Map.set (Map.ofList [(str "a", str "0")]) (str "a") (str "1"))
          (str "a") (str "2")) (str "b") (str "3")) (str "a") = some (str "2") :=
  ⟨rfl, (ParseSlice_last_write_wins [str "a=1", str "a=2", str "b=3"]
    (Map.ofList [(str "a", str "0")])).2 3 _ rfl [str "a=1"] (str "a=2") [str "b=3"]
    (str "a") (str "2") rfl (by decide) (by decide) (by decide)
    (fun e1 he1 v1 h1 => by
      have he : e1 = str "b=3" := by simpa using he1
      subst he
      have hb : ParsePair (str "b=3") = some (str "b", str "3") := by decide
      rw [hb] at h1
      have hk : str "b" = str "a" := congrArg Prod.fst (Option.some.inj h1)
      exact absurd hk (by decide))⟩

/-- C13: a list of non-empty tokens none of which is accepted does not always leave
`ParseSlice` returning 0.  The token k=' (the value is a lone single quote) is not empty and
`ParsePair` does not return a pair for it, yet `ParseSlice` on the list holding only this token
panics instead of returning 0 with the destination unchanged. -/
theorem ParseSlice_unaccepted_token_panics :
    str "k='" ≠ [] ∧ accepted (str "k='") = false
      ∧ ParseSlice [str "k='"] (Map.ofList [(str "k", str "v")]) = none := by
  exact ⟨by decide, by decide, rfl⟩

/-! ## Claims about `Map.Merge` -/

theorem Merge_cons (m : Map) (kv : GoString × GoString) (e : List (GoString × GoString)) :
    m.Merge (kv :: e) = (m.set kv.1 kv.2).Merge e := rfl

theorem Merge_not_mem (m : Map) (e : List (GoString × GoString)) (k : GoString)
    (h : k ∉ e.map Prod.fst) : m.Merge e k = m k := by
  induction e generalizing m with
  | nil => rfl
  | cons kv rest ih =>
    simp only [List.map_cons, List.mem_cons, not_or] at h
    rw [Merge_cons, ih _ h.2]
    simp [Map.set, h.1]

theorem Merge_mem (m : Map) (e : List (GoString × GoString))
    (hnd : (e.map Prod.fst).Nodup) (k v : GoString) (h : (k, v) ∈ e) :
    m.Merge e k = some v := by
  induction e generalizing m with
  | nil => simp at h
  | cons kv rest ih =>
    simp only [List.map_cons, List.nodup_cons] at hnd
    rw [Merge_cons]
    rcases List.mem_cons.mp h with h1 | h1
    · subst h1
      rw [Merge_not_mem _ _ _ hnd.1]
      simp [Map.set]
    · exact ih _ hnd.2 h1

/-- C14: after `m.Merge(e)`, for a map `e` given by its entries (each key once): every key of
`e` holds its value of `e`, every other key holds what it held in `m`, and a key is present
exactly when it was present in `m` or is a key of `e`. -/
theorem Merge_overwrites (m : Map) (e : List (GoString × GoString))
    (hnd : (e.map Prod.fst).Nodup) :
    (∀ k v, (k, v) ∈ e → m.Merge e k = some v)
      ∧ (∀ k, k ∉ e.map Prod.fst → m.Merge e k = m k)
      ∧ (∀ k, (m.Merge e k).isSome ↔ (m k).isSome ∨ k ∈ e.map Prod.fst) := by
  refine ⟨fun k v h => Merge_mem m e hnd k v h, fun k h => Merge_not_mem m e k h, ?_⟩
  intro k
  by_cases hk : k ∈ e.map Prod.fst
  · obtain ⟨kv, hkv, rfl⟩ := List.mem_map.mp hk
    simp [Merge_mem m e hnd kv.1 kv.2 hkv, hk]
  · simp [Merge_not_mem m e k hk, hk]

/-- Witness of C14: the merge case of the test, foo = bar, bar = baz merged with baz = foo,
bar = qux. -/
theorem Merge_overwrites_witness :
    ((Map.ofList [(str "foo", str "bar"), (str "bar", str "baz")]).Merge
        [(str "baz", str "foo"), (str "bar", str "qux")] (str "foo") = some (str "bar")
      ∧ (Map.ofList [(str "foo", str "bar"), (str "bar", str "baz")]).Merge
        [(str "baz", str "foo"), (str "bar", str "qux")] (str "bar") = some (str "qux")
      ∧ (Map.ofList [(str "foo", str "bar"), (str "bar", str "baz")]).Merge
        [(str "baz", str "foo"), (str "bar", str "qux")] (str "baz") = some (str "foo"))
      ∧ ∀ k, ((Map.ofList [(str "foo", str "bar"), (str "bar", str "baz")]).Merge
          [(str "baz", str "foo"), (str "bar", str "qux")] k).isSome
        ↔ ((Map.ofList [(str "foo", str "bar"), (str "bar", str "baz")]) k).isSome
          ∨ k ∈ [(str "baz", str "foo"), (str "bar", str "qux")].map Prod.fst :=
  ⟨⟨(Merge_overwrites (Map.ofList [(str "foo", str "bar"), (str "bar", str "baz")])
      [(str "baz", str "foo"), (str "bar", str "qux")] (by decide)).2.1 (str "foo") (by decide),
    (Merge_overwrites (Map.ofList [(str "foo", str "bar"), (str "bar", str "baz")])
      [(str "baz", str "foo"), (str "bar", str "qux")] (by decide)).1 (str "bar") (str "qux")
      (by decide),
    (Merge_overwrites (Map.ofList [(str "foo", str "bar"), (str "bar", str "baz")])
      [(str "baz", str "foo"), (str "bar", str "qux")] (by decide)).1 (str "baz") (str "foo")
      (by decide)⟩,
    (Merge_overwrites (Map.ofList [(str "foo", str "bar"), (str "bar", str "baz")])
      [(str "baz", str "foo"), (str "bar", str "qux")] (by decide)).2.2⟩

/-- C15: merging a map with entries that it already holds, in particular with all of its own
current contents, leaves it unchanged. -/
theorem Merge_own_contents (m : Map) (e : List (GoString × GoString))
    (h : ∀ kv ∈ e, m kv.1 = some kv.2) : m.Merge e = m := by
  induction e with
  | nil => rfl
  | cons kv rest ih =>
    have hkv := h kv (List.mem_cons_self kv rest)
    have hset : m.set kv.1 kv.2 = m := by
      funext k
      by_cases hk : k = kv.1
      · simp [Map.set, hk, hkv]
      · simp [Map.set, hk]
    rw [Merge_cons, hset]
    exact ih (fun x hx => h x (List.mem_cons_of_mem kv hx))

/-- Witness of C15: a map of two entries merged with its own two entries. -/
theorem Merge_own_contents_witness :
    (Map.ofList [(str "foo", str "bar"), (str "bar", str "baz")]).Merge
        [(str "bar", str "baz"), (str "foo", str "bar")]
      = Map.ofList [(str "foo", str "bar"), (str "bar", str "baz")] :=
  Merge_own_contents (Map.ofList [(str "foo", str "bar"), (str "bar", str "baz")])
    [(str "bar", str "baz"), (str "foo", str "bar")] (by decide)

/-! ## Round trip and totality -/

theorem stripQuotes_eq_none_iff (v : GoString) :
    stripQuotes v = none ↔ ∃ q, (q = runeDblQuot ∨ q = runeQuot) ∧ v = [q] := by
  constructor
  · intro h
    by_cases hq : ∃ q, (q = runeDblQuot ∨ q = runeQuot) ∧ v.head? = some q
        ∧ v.getLast? = some q
    · obtain ⟨q, hquote, hfirst, hlast⟩ := hq
      cases v with
      | nil => simp at hfirst
      | cons a t =>
        simp only [List.head?_cons, Option.some.injEq] at hfirst
        subst hfirst
        by_cases ht : t = []
        · exact ⟨a, hquote, by rw [ht]⟩
        · have hl : t.getLast? = some a := by
            rw [← hlast]
            cases t with
            | nil => exact absurd rfl ht
            | cons b u => simp [List.getLast?_cons_cons]
          have hd := List.dropLast_append_getLast? a hl
          rw [← hd, stripQuotes_quoted a t.dropLast hquote] at h
          exact Option.noConfusion h
    · rw [stripQuotes_plain v hq] at h
      exact Option.noConfusion h
  · rintro ⟨q, hq, rfl⟩
    exact stripQuotes_single q hq

/-- The inputs on which `ParsePair` panics: the empty string, and a string whose value part
(after the first `=` at an index `≥ 1`) is a lone quote character. -/
theorem ParsePair_eq_none_iff (raw : GoString) :
    ParsePair raw = none ↔ raw = [] ∨ ∃ c pre q, (q = runeDblQuot ∨ q = runeQuot)
      ∧ byteEq ∉ pre ∧ raw = c :: (pre ++ [byteEq, q]) := by
  constructor
  · intro h
    cases raw with
    | nil => exact Or.inl rfl
    | cons c s =>
      right
      by_cases hs : byteEq ∈ s
      · obtain ⟨pre, val, rfl, hpre⟩ := List.eq_append_cons_of_mem hs
        rw [ParsePair_split c pre val hpre] at h
        have hv : stripQuotes val = none := by
          cases hsv : stripQuotes val with
          | none => rfl
          | some w => simp [hsv] at h
        obtain ⟨q, hq, rfl⟩ := (stripQuotes_eq_none_iff val).mp hv
        exact ⟨c, pre, q, hq, hpre, rfl⟩
      · rw [ParsePair_no_sep c s hs] at h
        exact Option.noConfusion h
  · rintro (rfl | ⟨c, pre, q, hq, hpre, rfl⟩)
    · decide
    · rw [ParsePair_split c pre [q] hpre, stripQuotes_single q hq]
      rfl

/-- The round trip of `ParsePair` when the first byte of `raw` is below 0x80 and `raw` has a
separator: the key and value it returns are parsed back from the re-encoding with the value
in double quotes, and from the plain re-encoding when the value is not quoted. -/
theorem ParsePair_roundtrip_of_ascii (raw k v : GoString) (h : ParsePair raw = some (k, v))
    (hsep : byteEq ∈ raw.tail) (hascii : ∀ c, raw.head? = some c → c.val < 128) :
    ParsePair (k ++ str "=" ++ [runeDblQuot] ++ v ++ [runeDblQuot]) = some (k, v)
      ∧ ((¬ ∃ q, (q = runeDblQuot ∨ q = runeQuot) ∧ v.head? = some q ∧ v.getLast? = some q) →
          ParsePair (k ++ str "=" ++ v) = some (k, v)) := by
  cases raw with
  | nil => simp at hsep
  | cons c s =>
    simp only [List.tail_cons] at hsep
    obtain ⟨pre, val, rfl, hpre⟩ := List.eq_append_cons_of_mem hsep
    have hc : c.val < 128 := hascii c rfl
    rw [ParsePair_split c pre val hpre, stringOfByte_ascii c hc] at h
    cases hsv : stripQuotes val with
    | none => simp [hsv] at h
    | some w =>
      simp only [hsv, Option.map_some', Option.some.injEq, Prod.mk.injEq] at h
      obtain ⟨hk, hw⟩ := h
      subst hk; subst hw
      constructor
      · have e : [c] ++ pre ++ str "=" ++ [runeDblQuot] ++ w ++ [runeDblQuot]
            = c :: (pre ++ byteEq :: (runeDblQuot :: (w ++ [runeDblQuot]))) := by
          simp [str_eq]
        rw [e, ParsePair_split c pre _ hpre, stripQuotes_quoted runeDblQuot w (Or.inl rfl),
          stringOfByte_ascii c hc]
        rfl
      · intro hnq
        have e : [c] ++ pre ++ str "=" ++ w = c :: (pre ++ byteEq :: w) := by
          simp [str_eq]
        rw [e, ParsePair_split c pre _ hpre, stripQuotes_plain w hnq, stringOfByte_ascii c hc]
        rfl

/-- C16: the round trip fails when the first byte is not ASCII.  `ParsePair` succeeds on é=v
with the key C3 83 A9 and the value v; the re-encoding of this key and value with the value in
double quotes, and the plain one, are both parsed to the key C3 83 83 A9, not back to the
key C3 83 A9. -/
theorem ParsePair_roundtrip_reencodes_key :
    ParsePair (str "é=v") = some ([0xC3, 0x83, 0xA9], str "v")
      ∧ ParsePair ([0xC3, 0x83, 0xA9] ++ str "=" ++ [runeDblQuot] ++ str "v" ++ [runeDblQuot])
          = some ([0xC3, 0x83, 0x83, 0xA9], str "v")
      ∧ ParsePair ([0xC3, 0x83, 0xA9] ++ str "=" ++ str "v")
          = some ([0xC3, 0x83, 0x83, 0xA9], str "v") := by
  decide

/-- C17: `ParsePair` is not total.  It panics on the empty string (the slice `pair[1:]`) and
on a token whose value is a lone quote character, such as k=" (the slice `val[1:last]` with
`last = 0`). -/
theorem ParsePair_panics :
    ParsePair (str "") = none ∧ ParsePair (str "k=\"") = none
      ∧ ParsePair (str "k='") = none := by
  decide

/-- C18: `ParseFlagArgs` is not total.  For the flag e it panics on the single argument -e=
(the empty string reaches `ParsePair`), on -e followed by an empty argument (the index
`arg[0]`), and on -e followed by k=" (the lone quote reaches `ParsePair`). -/
theorem ParseFlagArgs_panics :
    ParseFlagArgs (str "e") [str "-e="] Map.empty = none
      ∧ ParseFlagArgs (str "e") [str "-e", str ""] Map.empty = none
      ∧ ParseFlagArgs (str "e") [str "-e", str "k=\""] Map.empty = none := by
  exact ⟨rfl, rfl, rfl⟩

/-! ## `Read` and the invariant of the destination -/

theorem readLoop_eq_parseSliceLoop (TrimSpace : GoString → GoString) (lines : List GoString)
    (n : Nat) (dest : Map) :
    readLoop TrimSpace lines n dest = parseSliceLoop (cleanedLines TrimSpace lines) n dest := by
  induction lines generalizing n dest with
  | nil => rfl
  | cons text rest ih =>
    have hc : cleanedLines TrimSpace (text :: rest)
        = (if TrimSpace text ≠ [] ∧ (TrimSpace text).head? ≠ some runeHash
            then [TrimSpace text] else []) ++ cleanedLines TrimSpace rest := by
      simp only [cleanedLines, List.map_cons, List.filter_cons]
      split <;> simp_all
    rw [hc]
    simp only [readLoop]
    cases hl : TrimSpace text with
    | nil => simpa using ih n dest
    | cons c t =>
      by_cases hh : c = runeHash
      · simpa [index_zero_cons, hh] using ih n dest
      · simp only [index_zero_cons, hh, cleanLine, Option.bind_eq_bind, Option.some_bind,
          if_false, ne_eq, List.head?_cons, Option.some.injEq, not_false_eq_true, and_self,
          if_true, List.singleton_append, parseSliceLoop, reduceCtorEq]
        cases dest.parse (c :: t) with
        | none => rfl
        | some r => simpa using ih _ _

/-- C19: on a stream given by its lines, read without error, `Read` gives the result of
`ParseSlice` on the lines trimmed and without those that are then empty or begin with `#`
(the same count and destination, or the same panic), and the error it returns is nil.  On the
three lines of the test the `#` inside the quoted value is kept: qux = #xoo. -/
theorem Read_refines_ParseSlice (TrimSpace : GoString → GoString) (lines : List GoString)
    (dest : Map) :
    Read TrimSpace lines none dest
        = (ParseSlice (cleanedLines TrimSpace lines) dest).map (fun r => (r.1, none, r.2))
      ∧ Read trimAsciiSpace [str "FOO=bar", str "bar='baz'", str "qux=\"#xoo\""] none
          Map.empty
        = some (3, none, Map.ofList [(str "FOO", str "bar"), (str "bar", str "baz"),
            (str "qux", str "#xoo")]) := by
  refine ⟨?_, rfl⟩
  simp only [Read, ParseSlice, readLoop_eq_parseSliceLoop, Wrap]

theorem parse_non_empty (m d : Map) (e : GoString) (ok : Bool)
    (h : m.parse e = some (d, ok)) (hm : m.NonEmptyEntries) : d.NonEmptyEntries := by
  rcases parse_cases m e with ⟨-, h2⟩ | ⟨k, v, -, hk, hv, -, h2⟩ | ⟨k, v, -, -, -, h2⟩
  · rw [h2] at h; exact Option.noConfusion h
  · rw [h2] at h
    have hd : m.set k v = d := congrArg Prod.fst (Option.some.inj h)
    subst hd
    intro k1 v1 h1
    simp only [Map.set] at h1
    split at h1
    · rename_i hkk
      have := Option.some.inj h1
      subst this; subst hkk
      exact ⟨hk, hv⟩
    · exact hm k1 v1 h1
  · rw [h2] at h
    have hd : m = d := congrArg Prod.fst (Option.some.inj h)
    subst hd
    exact hm

theorem parseCount_non_empty (st st1 : FlagState) (s : GoString)
    (h : st.parseCount s = some st1) (hm : st.dest.NonEmptyEntries) :
    st1.dest.NonEmptyEntries := by
  simp only [FlagState.parseCount, Option.bind_eq_bind, Option.pure_def] at h
  cases hp : st.dest.parse s with
  | none => simp [hp] at h
  | some r =>
    obtain ⟨d, ok⟩ := r
    simp only [hp, Option.some_bind, Option.some.injEq] at h
    subst h
    exact parse_non_empty st.dest d s ok hp hm

theorem flagMarker_non_empty (sd dd : GoString) (st st1 : FlagState) (arg : GoString)
    (h : flagMarker sd dd st arg = some st1) (hm : st.dest.NonEmptyEntries) :
    st1.dest.NonEmptyEntries := by
  unfold flagMarker at h
  split at h
  · split at h
    · simp only [Option.pure_def, Option.some.injEq] at h
      subst h; exact hm
    · cases hs : sliceFrom arg ((sd.length : Int) + 1) with
      | none => simp [hs] at h
      | some s1 =>
        simp only [hs, Option.bind_eq_bind, Option.some_bind] at h
        exact parseCount_non_empty st st1 s1 h hm
  · split at h
    · split at h
      · simp only [Option.pure_def, Option.some.injEq] at h
        subst h; exact hm
      · cases hs : sliceFrom arg ((dd.length : Int) + 1) with
        | none => simp [hs] at h
        | some s1 =>
          simp only [hs, Option.bind_eq_bind, Option.some_bind] at h
          exact parseCount_non_empty st st1 s1 h hm
    · simp only [Option.pure_def, Option.some.injEq] at h
      subst h; exact hm

theorem flagStep_non_empty (sd dd : GoString) (st st1 : FlagState) (arg : GoString)
    (h : flagStep sd dd st arg = some st1) (hm : st.dest.NonEmptyEntries) :
    st1.dest.NonEmptyEntries := by
  unfold flagStep at h
  split at h
  · cases hi : index arg 0 with
    | none => simp [hi] at h
    | some a0 =>
      simp only [hi, Option.bind_eq_bind, Option.some_bind] at h
      split at h
      · cases hp : st.parseCount arg with
        | none => simp [hp] at h
        | some st2 =>
          simp only [hp, Option.some_bind, Option.pure_def, Option.some.injEq] at h
          subst h
          exact parseCount_non_empty st st2 arg hp hm
      · exact flagMarker_non_empty sd dd st st1 arg h hm
  · exact flagMarker_non_empty sd dd st st1 arg h hm

theorem flagLoop_non_empty (sd dd : GoString) (args : List GoString) (st st1 : FlagState)
    (h : flagLoop sd dd args st = some st1) (hm : st.dest.NonEmptyEntries) :
    st1.dest.NonEmptyEntries := by
  induction args generalizing st with
  | nil =>
    simp only [flagLoop, Option.some.injEq] at h
    subst h; exact hm
  | cons a rest ih =>
    simp only [flagLoop] at h
    cases hs : flagStep sd dd st a with
    | none => simp [hs] at h
    | some st2 =>
      simp only [hs, Option.some_bind] at h
      exact ih st2 h (flagStep_non_empty sd dd st st2 a hs hm)

/-- C20: when every entry of `dest` has a non-empty key and a non-empty value, the same
holds of the destination after every call of `ParseSlice`, of `ParseFlagArgs` and of `Read`
that returns. -/
theorem parsing_keeps_entries_non_empty (dest : Map) (hd : dest.NonEmptyEntries) :
    (∀ env n d, ParseSlice env dest = some (n, d) → d.NonEmptyEntries)
      ∧ (∀ flag args n d, ParseFlagArgs flag args dest = some (n, d) → d.NonEmptyEntries)
      ∧ (∀ TrimSpace lines scanErr n err d,
          Read TrimSpace lines scanErr dest = some (n, err, d) → d.NonEmptyEntries) := by
  refine ⟨?_, ?_, ?_⟩
  · intro env n d h
    exact parseSliceLoop_non_empty env 0 dest n d h hd
  · intro flag args n d h
    unfold ParseFlagArgs at h
    split at h
    · simp only [Option.some.injEq, Prod.mk.injEq] at h
      rw [← h.2]; exact hd
    · cases hl : flagLoop (str "-" ++ flag) (str "--" ++ flag) args
          { n := 0, dest := dest, nextIsPair := false } with
      | none => simp [hl] at h
      | some st1 =>
        simp only [hl, Option.map_some', Option.some.injEq, Prod.mk.injEq] at h
        rw [← h.2]
        exact flagLoop_non_empty _ _ args _ st1 hl hd
  · intro TrimSpace lines scanErr n err d h
    unfold Read at h
    rw [readLoop_eq_parseSliceLoop] at h
    cases hl : parseSliceLoop (cleanedLines TrimSpace lines) 0 dest with
    | none => simp [hl] at h
    | some r =>
      simp only [hl, Option.map_some', Option.some.injEq, Prod.mk.injEq] at h
      rw [← h.2.2]
      exact parseSliceLoop_non_empty _ 0 dest r.1 r.2 (by rw [hl]) hd

theorem NonEmptyEntries_singleton (k v : GoString) (hk : k ≠ []) (hv : v ≠ []) :
    (Map.ofList [(k, v)]).NonEmptyEntries := by
  intro k1 v1 h
  simp only [Map.ofList, List.foldl, Map.set, Map.empty] at h
  split at h
  · rename_i hkk
    have := Option.some.inj h
    subst this; subst hkk
    exact ⟨hk, hv⟩
  · exact Option.noConfusion h

/-- Witness of C20: a destination of one entry, a slice with an accepted and a rejected token,
and a flag with a pair. -/
theorem parsing_keeps_entries_non_empty_witness :
    (ParseSlice [str "a=1", str "b="] (Map.ofList [(str "k", str "v")])
        = some (1, Map.set (Map.ofList [(str "k", str "v")]) (str "a") (str "1"))
      ∧ (Map.set (Map.ofList [(str "k", str "v")]) (str "a") (str "1")).NonEmptyEntries)
      ∧ (ParseFlagArgs (str "e") [str "-e", str "foo=bar"] (Map.ofList [(str "k", str "v")])
        = some (1, Map.set (Map.ofList [(str "k", str "v")]) (str "foo") (str "bar"))
      ∧ (Map.set (Map.ofList [(str "k", str "v")]) (str "foo") (str "bar")).NonEmptyEntries) :=
  ⟨⟨rfl, (parsing_keeps_entries_non_empty (Map.ofList [(str "k", str "v")])
      (NonEmptyEntries_singleton (str "k") (str "v") (by decide) (by decide))).1
      [str "a=1", str "b="] 1 _ rfl⟩,
    ⟨rfl, (parsing_keeps_entries_non_empty (Map.ofList [(str "k", str "v")])
      (NonEmptyEntries_singleton (str "k") (str "v") (by decide) (by decide))).2.1
      (str "e") [str "-e", str "foo=bar"] 1 _ rfl⟩⟩

end GoEnv
